import Mathlib

set_option maxHeartbeats 1000000

/-!
Verification development for the `fantasydraftpredictor` repository.

The Python sources under `src/draft-simulator/` are shallowly embedded below:
pure string manipulation is modelled on `List Char`, the draft simulator's
mutable state is modelled by explicit state passing, and pandas operations
whose output order is only partially specified are modelled as relations.
-/

namespace FantasyDraft

/-- Python's regex class `\s` restricted to ASCII, which is all that player
name strings contain: space, tab, newline, carriage return, vertical tab and
form feed. -/
def isPySpace (c : Char) : Bool :=
  c = ' ' || c = '\t' || c = '\n' || c = '\r' || c = Char.ofNat 11 || c = Char.ofNat 12

/-- The apostrophe character (codepoint 39), removed by `standardize_name`. -/
def apostrophe : Char := Char.ofNat 39

/-- Python `str.rstrip()` on a character list. -/
def pyRstrip (cs : List Char) : List Char :=
  (cs.reverse.dropWhile isPySpace).reverse

/-- Python `str.strip()` on a character list. -/
def pyStrip (cs : List Char) : List Char :=
  (pyRstrip cs).dropWhile isPySpace

/-- One alternative of the suffix-stripping regular expressions: working on the
reversed string `r`, try to match the reversed suffix `sufRev` at the start of
`r` (the end of the original string), require at least one whitespace character
immediately before the suffix (the `\s+` part of the pattern), and return the
original string with the whitespace run and the suffix removed. -/
def tryStripRev (sufRev : List Char) (r : List Char) : Option (List Char) :=
  if sufRev.isPrefixOf r then
    match r.drop sufRev.length with
    | [] => none
    | c :: rest =>
      if isPySpace c then some (((c :: rest).dropWhile isPySpace).reverse) else none
  else none

/-- Suffix alternatives of `standardize_name`, in the order of the regex
alternation `(Jr\.|Sr\.|II|III|IV)`. -/
def stdSuffixes : List String := ["Jr.", "Sr.", "II", "III", "IV"]

/-- `re.sub(r'\s+(Jr\.|Sr\.|II|III|IV)$', '', name)` from
`player_ranking_tool.standardize_name`. -/
def stripStdSuffix (cs : List Char) : List Char :=
  (List.findSome? (fun suf => tryStripRev (String.toList suf).reverse cs.reverse)
    stdSuffixes).getD cs

/-- `player_ranking_tool.standardize_name`: strip the suffix, remove periods
and apostrophes, lower-case, and trim whitespace. -/
def standardize_name (cs : List Char) : List Char :=
  let stripped := stripStdSuffix cs
  let noPunct := stripped.filter (fun c => !(c = '.' || c = apostrophe))
  pyStrip (noPunct.map Char.toLower)

/-- One alternative of `normalize_player_name`'s pattern
`\s+(Jr\.|Sr\.|III|IV|II)\.?$`: the optional trailing period is matched
greedily, so on the reversed string we first try the branch that consumes a
leading period. -/
def tryStripOptDotRev (sufRev : List Char) (r : List Char) : Option (List Char) :=
  match r with
  | '.' :: r2 => tryStripRev sufRev r2 <|> tryStripRev sufRev r
  | _ => tryStripRev sufRev r

/-- Suffix alternatives of `normalize_player_name`, in the order of the regex
alternation `(Jr\.|Sr\.|III|IV|II)`. -/
def normSuffixes : List String := ["Jr.", "Sr.", "III", "IV", "II"]

/-- The substitution part of `DraftSimulator.normalize_player_name`. -/
def stripNormSuffix (cs : List Char) : List Char :=
  (List.findSome? (fun suf => tryStripOptDotRev (String.toList suf).reverse cs.reverse)
    normSuffixes).getD cs

/-- `DraftSimulator.normalize_player_name`:
`re.sub(r'\s+(Jr\.|Sr\.|III|IV|II)\.?$', '', name).strip()`. -/
def normalize_player_name (cs : List Char) : List Char :=
  pyStrip (stripNormSuffix cs)

/-! Helper lemmas about whitespace handling. -/

theorem dropWhile_append_of_all {α : Type} {p : α → Bool} {xs ys : List α}
    (h : ∀ x ∈ xs, p x = true) :
    (xs ++ ys).dropWhile p = ys.dropWhile p := by
  induction xs with
  | nil => rfl
  | cons a as ih =>
    have ha : p a = true := h a (by simp)
    simp only [List.cons_append, List.dropWhile_cons, ha, if_true]
    exact ih (fun x hx => h x (by simp [hx]))

theorem pyRstrip_append_spaces {base t : List Char}
    (ht : ∀ c ∈ t, isPySpace c = true) :
    pyRstrip (base ++ t) = pyRstrip base := by
  unfold pyRstrip
  rw [List.reverse_append, dropWhile_append_of_all (by simpa using ht)]

theorem pyStrip_append_spaces {base t : List Char}
    (ht : ∀ c ∈ t, isPySpace c = true) :
    pyStrip (base ++ t) = pyStrip base := by
  unfold pyStrip
  rw [pyRstrip_append_spaces ht]

/-- A string decomposes as its right-trimmed part followed by trailing
whitespace. -/
theorem rstrip_decomposition (cs : List Char) :
    ∃ t, cs = pyRstrip cs ++ t ∧ ∀ c ∈ t, isPySpace c = true := by
  refine ⟨(cs.reverse.takeWhile isPySpace).reverse, ?_, ?_⟩
  · rw [pyRstrip, ← List.reverse_append, List.takeWhile_append_dropWhile,
      List.reverse_reverse]
  · intro c hc
    rw [List.mem_reverse] at hc
    exact List.mem_takeWhile_imp hc

/-- On space characters, lower-casing and punctuation-filtering act as the
identity. -/
theorem space_char_fixed {c : Char} (h : isPySpace c = true) :
    Char.toLower c = c ∧ (!(c = '.' || c = apostrophe)) = true := by
  simp only [isPySpace, Bool.or_eq_true, decide_eq_true_eq] at h
  rcases h with ((((h | h) | h) | h) | h) | h <;> subst h <;> exact ⟨by decide, by decide⟩

theorem isPrefixOf_append_self {α : Type} [BEq α] [LawfulBEq α] (l t : List α) :
    l.isPrefixOf (l ++ t) = true := by
  induction l with
  | nil => simp [List.isPrefixOf]
  | cons a as ih => simp [List.isPrefixOf, ih]

theorem tryStripRev_fire (sufRev rest : List Char) (c : Char) (hc : isPySpace c = true) :
    tryStripRev sufRev (sufRev ++ c :: rest) =
      some (((c :: rest).dropWhile isPySpace).reverse) := by
  unfold tryStripRev
  rw [if_pos (isPrefixOf_append_self sufRev (c :: rest)), List.drop_left]
  simp [hc]

theorem dropWhile_space_block {u : List Char} (rest : List Char) (c : Char)
    (hc : isPySpace c = true) (hu : ∀ x ∈ u, isPySpace x = true) :
    ((c :: (u ++ rest)).dropWhile isPySpace).reverse = pyRstrip rest.reverse := by
  rw [List.dropWhile_cons_of_pos hc, dropWhile_append_of_all hu, pyRstrip,
    List.reverse_reverse]

/-- The suffix regex of `standardize_name` removes exactly a trailing
whitespace run followed by one of the five suffix alternatives. -/
theorem stripStdSuffix_append (base ws : List Char) (suf : String)
    (hws : ws ≠ []) (hsp : ∀ c ∈ ws, isPySpace c = true) (hsuf : suf ∈ stdSuffixes) :
    stripStdSuffix (base ++ ws ++ String.toList suf) = pyRstrip base := by
  obtain ⟨c, u, hwsrev⟩ : ∃ c u, ws.reverse = c :: u := by
    cases h : ws.reverse with
    | nil => exact absurd (by simpa using congrArg List.reverse h) hws
    | cons c u => exact ⟨c, u, rfl⟩
  have hc : isPySpace c = true := hsp c (by
    rw [← List.mem_reverse, hwsrev]; exact List.mem_cons_self _ _)
  have hu : ∀ x ∈ u, isPySpace x = true := fun x hx => hsp x (by
    rw [← List.mem_reverse, hwsrev]; exact List.mem_cons_of_mem _ hx)
  have hrev : ∀ sufL : List Char,
      (base ++ ws ++ sufL).reverse = sufL.reverse ++ (c :: (u ++ base.reverse)) := by
    intro sufL
    rw [List.reverse_append, List.reverse_append, hwsrev]
    simp
  have hdw : ((c :: (u ++ base.reverse)).dropWhile isPySpace).reverse = pyRstrip base := by
    rw [dropWhile_space_block base.reverse c hc hu, List.reverse_reverse]
  have hJr : ("Jr.".toList.reverse : List Char) = ['.', 'r', 'J'] := rfl
  have hSr : ("Sr.".toList.reverse : List Char) = ['.', 'r', 'S'] := rfl
  have hII : ("II".toList.reverse : List Char) = ['I', 'I'] := rfl
  have hIII : ("III".toList.reverse : List Char) = ['I', 'I', 'I'] := rfl
  have hIV : ("IV".toList.reverse : List Char) = ['V', 'I'] := rfl
  fin_cases hsuf
  · -- suffix "Jr."
    rw [stripStdSuffix, hrev, hJr]
    simp only [stdSuffixes, List.findSome?, hJr, hSr, hII, hIII, hIV]
    rw [tryStripRev_fire ['.', 'r', 'J'] (u ++ base.reverse) c hc]
    simpa using hdw
  · -- suffix "Sr."
    rw [stripStdSuffix, hrev, hSr]
    simp only [stdSuffixes, List.findSome?, hJr, hSr, hII, hIII, hIV]
    rw [show tryStripRev ['.', 'r', 'J']
      (['.', 'r', 'S'] ++ c :: (u ++ base.reverse)) = none from rfl]
    rw [tryStripRev_fire ['.', 'r', 'S'] (u ++ base.reverse) c hc]
    simpa using hdw
  · -- suffix "II"
    rw [stripStdSuffix, hrev, hII]
    simp only [stdSuffixes, List.findSome?, hJr, hSr, hII, hIII, hIV]
    rw [show tryStripRev ['.', 'r', 'J']
      (['I', 'I'] ++ c :: (u ++ base.reverse)) = none from rfl]
    rw [show tryStripRev ['.', 'r', 'S']
      (['I', 'I'] ++ c :: (u ++ base.reverse)) = none from rfl]
    rw [tryStripRev_fire ['I', 'I'] (u ++ base.reverse) c hc]
    simpa using hdw
  · -- suffix "III"
    rw [stripStdSuffix, hrev, hIII]
    simp only [stdSuffixes, List.findSome?, hJr, hSr, hII, hIII, hIV]
    rw [show tryStripRev ['.', 'r', 'J']
      (['I', 'I', 'I'] ++ c :: (u ++ base.reverse)) = none from rfl]
    rw [show tryStripRev ['.', 'r', 'S']
      (['I', 'I', 'I'] ++ c :: (u ++ base.reverse)) = none from rfl]
    rw [show tryStripRev ['I', 'I']
      (['I', 'I', 'I'] ++ c :: (u ++ base.reverse)) = none from rfl]
    rw [tryStripRev_fire ['I', 'I', 'I'] (u ++ base.reverse) c hc]
    simpa using hdw
  · -- suffix "IV"
    rw [stripStdSuffix, hrev, hIV]
    simp only [stdSuffixes, List.findSome?, hJr, hSr, hII, hIII, hIV]
    rw [show tryStripRev ['.', 'r', 'J']
      (['V', 'I'] ++ c :: (u ++ base.reverse)) = none from rfl]
    rw [show tryStripRev ['.', 'r', 'S']
      (['V', 'I'] ++ c :: (u ++ base.reverse)) = none from rfl]
    rw [show tryStripRev ['I', 'I']
      (['V', 'I'] ++ c :: (u ++ base.reverse)) = none from rfl]
    rw [show tryStripRev ['I', 'I', 'I']
      (['V', 'I'] ++ c :: (u ++ base.reverse)) = none from rfl]
    rw [tryStripRev_fire ['V', 'I'] (u ++ base.reverse) c hc]
    simpa using hdw

/-- `standardize_name` removes a whitespace-preceded trailing suffix before the
other normalisation steps. -/
theorem standardize_name_append_suffix (base ws : List Char) (suf : String)
    (hws : ws ≠ []) (hsp : ∀ c ∈ ws, isPySpace c = true) (hsuf : suf ∈ stdSuffixes)
    (hbase : stripStdSuffix base = base) :
    standardize_name (base ++ ws ++ String.toList suf) = standardize_name base := by
  simp only [standardize_name]
  rw [stripStdSuffix_append base ws suf hws hsp hsuf, hbase]
  obtain ⟨t, hbt, ht⟩ := rstrip_decomposition base
  conv_rhs => rw [hbt]
  rw [List.filter_append, List.map_append]
  have ht1 : t.filter (fun c => !(c = '.' || c = apostrophe)) = t :=
    List.filter_eq_self.mpr (fun c hc => (space_char_fixed (ht c hc)).2)
  have ht2 : t.map Char.toLower = t := by
    conv_rhs => rw [← List.map_id t]
    exact List.map_congr_left (fun c hc => (space_char_fixed (ht c hc)).1)
  rw [ht1, ht2]
  exact (pyStrip_append_spaces ht).symm

/-- C2: amended claim. The normalizers strip the suffixes `Jr.`, `Sr.`, `II`,
`III`, `IV` written exactly as in the regex alternation (the period is part of
the `Jr.`/`Sr.` tokens and there is no optional extra period in
`standardize_name`; the suffix `V` is not stripped) when preceded by
whitespace at the end of the string; `standardize_name` additionally removes
periods and apostrophes, lower-cases and trims whitespace; in particular both
normalizers send "Odell Beckham Jr." and "Odell Beckham" to the same string. -/
theorem C2_name_normalizer (base ws : List Char) (suf : String)
    (hws : ws ≠ []) (hsp : ∀ c ∈ ws, isPySpace c = true) (hsuf : suf ∈ stdSuffixes)
    (hbase : stripStdSuffix base = base) :
    standardize_name (base ++ ws ++ String.toList suf) = standardize_name base ∧
    standardize_name (String.toList "Odell Beckham Jr.") =
      standardize_name (String.toList "Odell Beckham") ∧
    normalize_player_name (String.toList "Odell Beckham Jr.") =
      normalize_player_name (String.toList "Odell Beckham") :=
  ⟨standardize_name_append_suffix base ws suf hws hsp hsuf hbase, by decide, by decide⟩

/-- C2: counterexample to the claim as stated. The suffix `V` is not in either
regex, and the trailing period is not optional in `standardize_name` (`Jr`
without a period is not stripped), so the claimed equalities fail. -/
theorem C2_counterexample :
    standardize_name (String.toList "Odell Beckham V") ≠
      standardize_name (String.toList "Odell Beckham") ∧
    standardize_name (String.toList "Odell Beckham Jr") ≠
      standardize_name (String.toList "Odell Beckham") := by
  decide

/-- C2: witness instantiating `C2_name_normalizer` on a concrete name. -/
theorem C2_witness :
    standardize_name (String.toList "Odell Beckham" ++ [' '] ++ String.toList "Jr.") =
      standardize_name (String.toList "Odell Beckham") :=
  (C2_name_normalizer (String.toList "Odell Beckham") [' '] "Jr." (by decide)
    (by decide) (by decide) (by decide)).1

/-- `DraftSimulator.get_round_draft_order`: even rounds use the reversed draft
order, odd rounds use it unchanged. -/
def get_round_draft_order {α : Type} (draft_order : List α) (round_num : Nat) : List α :=
  if round_num % 2 = 0 then draft_order.reverse else draft_order

/-- `DraftSimulator.run_draft` iterates `round_num` from 1 to `max_rounds` and
processes the seats of `get_round_draft_order round_num` in order; this is the
resulting sequence of seats over the whole draft. -/
def fullPickSequence {α : Type} (draft_order : List α) (max_rounds : Nat) : List α :=
  ((List.range max_rounds).map (fun i => get_round_draft_order draft_order (i + 1))).flatten

/-- C5: for every round, even rounds draft in the reverse of `draft_order` and
odd rounds in `draft_order` unchanged; with `max_rounds = 4` and order
`[A, B, C]` the full pick sequence is `A,B,C,C,B,A,A,B,C,C,B,A`. -/
theorem C5_snake_order :
    (∀ (order : List String) (r : Nat), Even r →
      get_round_draft_order order r = order.reverse) ∧
    (∀ (order : List String) (r : Nat), ¬ Even r →
      get_round_draft_order order r = order) ∧
    fullPickSequence ["A", "B", "C"] 4 =
      ["A", "B", "C", "C", "B", "A", "A", "B", "C", "C", "B", "A"] := by
  refine ⟨fun order r hr => ?_, fun order r hr => ?_, by decide⟩
  · rw [get_round_draft_order, if_pos (Nat.even_iff.mp hr)]
  · rw [get_round_draft_order, if_neg (fun h => hr (Nat.even_iff.mpr h))]

/-- C5: witness instantiating `C5_snake_order` at concrete rounds. -/
theorem C5_witness :
    get_round_draft_order ["A", "B", "C"] 2 = ["C", "B", "A"] ∧
    get_round_draft_order ["A", "B", "C"] 3 = ["A", "B", "C"] :=
  ⟨C5_snake_order.1 ["A", "B", "C"] 2 (by decide),
   C5_snake_order.2.1 ["A", "B", "C"] 3 (by decide)⟩

/-- The `Player` entity of the draft simulator (`player.py` together with the
attributes `llm_draft_auto_drafting.py` uses): a name, position and team, the
optional `rating` attribute read by `getattr(p, "rating", 999)`, the `drafted`
flag and the `drafted_by` owner. -/
structure Player where
  name : String
  position : String
  team : String
  rating : Option Rat
  drafted : Bool
  draftedBy : Option String
  deriving DecidableEq

/-- `DraftSimulator.mark_player_as_drafted`: if the argument is a player that
is not yet drafted, set its flag and append its name to the drafted list;
otherwise (already drafted, or `None`) change nothing. -/
def mark_player_as_drafted (player : Option Player) (drafted_players : List String) :
    Option Player × List String :=
  match player with
  | none => (none, drafted_players)
  | some p =>
    if p.drafted then (some p, drafted_players)
    else (some { p with drafted := true }, drafted_players ++ [p.name])

/-- C10: `mark_player_as_drafted` is idempotent: a `None` argument changes
nothing; a first call on an undrafted player sets the flag and appends the name
exactly once; a call on an already-drafted player changes nothing; repeating
the call is a no-op; and, given the invariant that a name already on the list
belongs to a drafted player, the operation never introduces a duplicate
name. -/
theorem C10_mark_player_idempotent (p : Player) (l : List String) :
    mark_player_as_drafted none l = (none, l) ∧
    (p.drafted = true → mark_player_as_drafted (some p) l = (some p, l)) ∧
    (p.drafted = false →
      mark_player_as_drafted (some p) l =
        (some { p with drafted := true }, l ++ [p.name])) ∧
    mark_player_as_drafted (mark_player_as_drafted (some p) l).1
        (mark_player_as_drafted (some p) l).2 =
      mark_player_as_drafted (some p) l ∧
    (l.Nodup → (p.name ∈ l → p.drafted = true) →
      ((mark_player_as_drafted (some p) l).2).Nodup) := by
  cases hp : p.drafted with
  | true =>
    refine ⟨rfl, fun _ => ?_, fun h => ?_, ?_, fun hn _ => ?_⟩
    · simp [mark_player_as_drafted, hp]
    · exact absurd h (by decide)
    · simp [mark_player_as_drafted, hp]
    · simpa [mark_player_as_drafted, hp] using hn
  | false =>
    refine ⟨rfl, fun h => ?_, fun _ => ?_, ?_, fun hn hmem => ?_⟩
    · exact absurd h (by decide)
    · simp [mark_player_as_drafted, hp]
    · simp [mark_player_as_drafted, hp]
    · have hnotmem : p.name ∉ l := fun hin => absurd (hmem hin) (by decide)
      simp [mark_player_as_drafted, hp, List.nodup_append, hn, hnotmem]

/-- C10: witness instantiating `C10_mark_player_idempotent` on a concrete
player. -/
theorem C10_witness :
    mark_player_as_drafted
        (some ⟨"Tom Brady", "QB", "TB", none, false, none⟩) [] =
      (some ⟨"Tom Brady", "QB", "TB", none, true, none⟩, ["Tom Brady"]) :=
  (C10_mark_player_idempotent ⟨"Tom Brady", "QB", "TB", none, false, none⟩ []).2.2.1 rfl

/-! The draft state machine of `llm_draft_auto_drafting.DraftSimulator`. -/

/-- `Player.__init__`: a freshly loaded player is undrafted and unowned. -/
def loadPlayer (name position team : String) (rating : Option Rat) : Player :=
  ⟨name, position, team, rating, false, none⟩

/-- Substring containment on character lists (Python `needle in hay`). -/
def isSubstring (needle hay : List Char) : Bool :=
  hay.tails.any (fun t => needle.isPrefixOf t)

/-- `isSubstring` decides exactly the existence of a substring occurrence. -/
theorem isSubstring_iff (n h : List Char) :
    isSubstring n h = true ↔ ∃ l r, h = l ++ (n ++ r) := by
  unfold isSubstring
  rw [List.any_eq_true]
  constructor
  · rintro ⟨t, ht, hp⟩
    rw [List.mem_tails] at ht
    rw [List.isPrefixOf_iff_prefix] at hp
    obtain ⟨r, hr⟩ := hp
    obtain ⟨l, hl⟩ := ht
    exact ⟨l, r, by rw [← hl, ← hr]⟩
  · rintro ⟨l, r, rfl⟩
    exact ⟨n ++ r, (List.mem_tails _ _).mpr ⟨l, rfl⟩,
      List.isPrefixOf_iff_prefix.mpr ⟨r, rfl⟩⟩

/-- Python `query in hay.lower()` where `query` has already been lower-cased:
case-insensitive substring containment. -/
def lowerContains (query hay : String) : Bool :=
  isSubstring (query.toList.map Char.toLower) (hay.toList.map Char.toLower)

/-- The mutable state of `DraftSimulator` that the pick loop touches: the
player pool (with per-player `drafted`/`drafted_by`), the `drafted_players`
audit list, and the roster entries produced by `Team.add_player` (team name
paired with the index of the player object in the pool). -/
structure DraftState where
  players : List Player
  draftedPlayers : List String
  rosterEntries : List (String × Nat)
  deriving DecidableEq

/-- The list comprehension of `DraftSimulator.find_player_by_name`:
`[p for p in self.players if name in p.name.lower() and not p.drafted]`, as
pool indices. -/
def matchIndices (st : DraftState) (query : String) : List Nat :=
  (List.range st.players.length).filter (fun i =>
    match st.players[i]? with
    | some p => lowerContains query p.name && !p.drafted
    | none => false)

/-- `DraftSimulator.find_player_by_name`. No match returns `None`; a unique
match is returned directly; on multiple matches the method interactively
re-prompts until the user supplies a valid selection, modelled by the `choice`
argument reduced into the valid range. -/
def find_player_by_name (st : DraftState) (query : String) (choice : Nat) : Option Nat :=
  if h : matchIndices st query = [] then none
  else some ((matchIndices st query).get
    ⟨choice % (matchIndices st query).length, Nat.mod_lt _ (List.length_pos.mpr h)⟩)

/-- The available-player indices: `[p for p in self.players if not p.drafted]`. -/
def availableIndices (st : DraftState) : List Nat :=
  (List.range st.players.length).filter (fun i =>
    match st.players[i]? with
    | some p => !p.drafted
    | none => false)

/-- `DraftSimulator.get_team_positions` restricted to one position: the number
of pool players drafted by the given team at that position. -/
def get_team_positions (st : DraftState) (teamName pos : String) : Nat :=
  (st.players.filter (fun p =>
    p.drafted && p.draftedBy == some teamName && p.position == pos)).length

/-- The target roster composition of `make_auto_team_selection`. -/
def target_composition : List (String × Nat) := [("QB", 1), ("RB", 2), ("WR", 2), ("TE", 1)]

/-- `position_at_limit` of `make_auto_team_selection`; positions outside the
target composition are never at their limit
(`position_at_limit.get(p.position, False)`). -/
def position_at_limit (st : DraftState) (teamName pos : String) : Bool :=
  match target_composition.lookup pos with
  | some target => target ≤ get_team_positions st teamName pos
  | none => false

/-- The `valid_players` filter of `make_auto_team_selection`: available
players whose position has not reached its roster limit. -/
def autoValidIndices (st : DraftState) (teamName : String) : List Nat :=
  (availableIndices st).filter (fun i =>
    match st.players[i]? with
    | some p => !position_at_limit st teamName p.position
    | none => false)

/-- `DraftSimulator.make_auto_team_selection`: best available player whose
position has not reached its target count, else best available overall, else
`None` when the pool is exhausted. -/
def make_auto_team_selection (st : DraftState) (teamName : String) : Option Nat :=
  if availableIndices st = [] then none
  else
    match autoValidIndices st teamName with
    | i :: _ => some i
    | [] => (availableIndices st).head?

/-- The shared tail of every successful pick in `run_draft`:
`team.add_player(player)` (which appends the player to the team roster),
`player.drafted = True`, `player.drafted_by = team.name`, and
`self.drafted_players.append(player.name)`. A `None` selection leaves the
state unchanged (the simulator prints an error and moves on). -/
def applyPick (st : DraftState) (teamName : String) (idx : Option Nat) : DraftState :=
  match idx with
  | none => st
  | some i =>
    match st.players[i]? with
    | none => st
    | some p =>
      { players := st.players.set i { p with drafted := true, draftedBy := some teamName }
        draftedPlayers := st.draftedPlayers ++ [p.name]
        rosterEntries := st.rosterEntries ++ [(teamName, i)] }

/-- The three seat types of `run_draft`. A human seat resolves a typed query
through `find_player_by_name`; an automated seat uses
`make_auto_team_selection`; an LLM Selector seat resolves whatever name the
Selector returned through `find_player_by_name`. -/
inductive PickAction where
  | human (teamName query : String) (choice : Nat)
  | auto (teamName : String)
  | selector (teamName selectorName : String) (choice : Nat)

/-- One pick of the `run_draft` loop. -/
def stepPick (st : DraftState) : PickAction → DraftState
  | .human t q c => applyPick st t (find_player_by_name st q c)
  | .auto t => applyPick st t (make_auto_team_selection st t)
  | .selector t n c => applyPick st t (find_player_by_name st n c)

/-- A whole draft run: the picks of `run_draft` in order. -/
def runPicks (st : DraftState) (acts : List PickAction) : DraftState :=
  acts.foldl stepPick st

/-! Soundness of the three selection paths: every index they return denotes an
undrafted player. -/

theorem set_self_of_getElem? {α : Type} (l : List α) (i : Nat) (a : α)
    (h : l[i]? = some a) : l.set i a = l := by
  apply List.ext_getElem?
  intro j
  by_cases hij : i = j
  · subst hij
    obtain ⟨hlt, ha⟩ := List.getElem?_eq_some_iff.mp h
    rw [List.getElem?_set_self hlt, h]
  · rw [List.getElem?_set_ne hij]

theorem mem_matchIndices (st : DraftState) (q : String) (i : Nat)
    (h : i ∈ matchIndices st q) :
    ∃ p, st.players[i]? = some p ∧ p.drafted = false ∧ lowerContains q p.name = true := by
  unfold matchIndices at h
  rw [List.mem_filter] at h
  obtain ⟨_, hpred⟩ := h
  cases hp : st.players[i]? with
  | none => rw [hp] at hpred; exact absurd hpred (by simp)
  | some p =>
    rw [hp] at hpred
    simp only [Bool.and_eq_true, Bool.not_eq_true'] at hpred
    exact ⟨p, rfl, hpred.2, hpred.1⟩

theorem find_player_by_name_mem (st : DraftState) (q : String) (c i : Nat)
    (h : find_player_by_name st q c = some i) : i ∈ matchIndices st q := by
  unfold find_player_by_name at h
  split at h
  · exact absurd h (by simp)
  · injection h with h'
    exact h' ▸ List.get_mem _ _ _

theorem find_player_by_name_sound (st : DraftState) (q : String) (c i : Nat)
    (h : find_player_by_name st q c = some i) :
    ∃ p, st.players[i]? = some p ∧ p.drafted = false ∧ lowerContains q p.name = true :=
  mem_matchIndices st q i (find_player_by_name_mem st q c i h)

theorem mem_availableIndices (st : DraftState) (i : Nat)
    (h : i ∈ availableIndices st) :
    ∃ p, st.players[i]? = some p ∧ p.drafted = false := by
  unfold availableIndices at h
  rw [List.mem_filter] at h
  obtain ⟨_, hpred⟩ := h
  cases hp : st.players[i]? with
  | none => rw [hp] at hpred; exact absurd hpred (by simp)
  | some p =>
    rw [hp] at hpred
    simp only [Bool.not_eq_true'] at hpred
    exact ⟨p, rfl, hpred⟩

theorem make_auto_team_selection_sound (st : DraftState) (t : String) (i : Nat)
    (h : make_auto_team_selection st t = some i) :
    ∃ p, st.players[i]? = some p ∧ p.drafted = false := by
  unfold make_auto_team_selection at h
  split at h
  · exact absurd h (by simp)
  · split at h
    · rename_i j rest hvalid
      injection h with h'
      have hj : j ∈ autoValidIndices st t := hvalid ▸ List.mem_cons_self _ _
      have hj2 : j ∈ availableIndices st := (List.mem_filter.mp hj).1
      exact mem_availableIndices st i (h' ▸ hj2)
    · exact mem_availableIndices st i (List.mem_of_mem_head? h)

/-- The invariant maintained by the pick loop. -/
def Inv (st : DraftState) : Prop :=
  st.draftedPlayers.Nodup ∧
  (∀ (i : Nat) (p : Player), st.players[i]? = some p →
    (p.drafted = true ↔ p.name ∈ st.draftedPlayers)) ∧
  (∀ (i : Nat) (p : Player), st.players[i]? = some p → p.drafted = false →
    ∀ e ∈ st.rosterEntries, e.2 ≠ i) ∧
  (st.rosterEntries.map Prod.snd).Nodup ∧
  (st.players.map Player.name).Nodup

theorem names_index_unique {players : List Player}
    (h5 : (players.map Player.name).Nodup) {i j : Nat} {p q : Player}
    (hi : players[i]? = some p) (hj : players[j]? = some q)
    (hname : p.name = q.name) : i = j := by
  have hlt : i < players.length := (List.getElem?_eq_some_iff.mp hi).1
  refine List.getElem?_inj (by simpa using hlt) h5 ?_
  rw [List.getElem?_map, List.getElem?_map, hi, hj]
  simp [hname]

theorem applyPick_inv (st : DraftState) (t : String) (i : Nat) (p : Player)
    (hp : st.players[i]? = some p) (hund : p.drafted = false)
    (hinv : Inv st) : Inv (applyPick st t (some i)) := by
  obtain ⟨h1, h2, h3, h4, h5⟩ := hinv
  have hname_not : p.name ∉ st.draftedPlayers := fun hmem => by
    have := (h2 i p hp).mpr hmem
    rw [hund] at this
    exact absurd this (by decide)
  have hfresh : ∀ e ∈ st.rosterEntries, e.2 ≠ i := h3 i p hp hund
  have hstep : applyPick st t (some i) =
      ⟨st.players.set i { p with drafted := true, draftedBy := some t },
       st.draftedPlayers ++ [p.name], st.rosterEntries ++ [(t, i)]⟩ := by
    simp [applyPick, hp]
  rw [hstep]
  refine ⟨?_, ?_, ?_, ?_, ?_⟩
  · simpa [List.nodup_append, h1] using hname_not
  · intro j q hq
    by_cases hij : i = j
    · subst hij
      have hlt : i < st.players.length := (List.getElem?_eq_some_iff.mp hp).1
      rw [List.getElem?_set_self hlt] at hq
      injection hq with hq
      subst hq
      simp
    · rw [List.getElem?_set_ne hij] at hq
      rw [h2 j q hq]
      constructor
      · intro hmem
        exact List.mem_append_left _ hmem
      · intro hmem
        rcases List.mem_append.mp hmem with hmem | hmem
        · exact hmem
        · have hqp : q.name = p.name := by simpa using hmem
          exact absurd (names_index_unique h5 hp hq hqp.symm) hij
  · intro j q hq hqund e he
    by_cases hij : i = j
    · subst hij
      have hlt : i < st.players.length := (List.getElem?_eq_some_iff.mp hp).1
      rw [List.getElem?_set_self hlt] at hq
      injection hq with hq
      subst hq
      exact absurd hqund (by simp)
    · rw [List.getElem?_set_ne hij] at hq
      rcases List.mem_append.mp he with he | he
      · exact h3 j q hq hqund e he
      · have : e = (t, i) := by simpa using he
        subst this
        exact fun hcon => hij (hcon ▸ rfl)
  · have hnot : i ∉ st.rosterEntries.map Prod.snd := by
      intro hmem
      obtain ⟨e, he, hei⟩ := List.mem_map.mp hmem
      exact hfresh e he hei
    simpa [List.nodup_append, h4] using hnot
  · rw [List.map_set]
    have : Player.name { p with drafted := true, draftedBy := some t } = p.name := rfl
    rw [this, set_self_of_getElem?]
    · exact h5
    · rw [List.getElem?_map, hp]
      rfl

theorem stepPick_inv (st : DraftState) (a : PickAction) (hinv : Inv st) :
    Inv (stepPick st a) := by
  cases a with
  | human t q c =>
    cases h : find_player_by_name st q c with
    | none => simpa [stepPick, applyPick, h] using hinv
    | some i =>
      obtain ⟨p, hp, hund, _⟩ := find_player_by_name_sound st q c i h
      simpa [stepPick, h] using applyPick_inv st t i p hp hund hinv
  | auto t =>
    cases h : make_auto_team_selection st t with
    | none => simpa [stepPick, applyPick, h] using hinv
    | some i =>
      obtain ⟨p, hp, hund⟩ := make_auto_team_selection_sound st t i h
      simpa [stepPick, h] using applyPick_inv st t i p hp hund hinv
  | selector t n c =>
    cases h : find_player_by_name st n c with
    | none => simpa [stepPick, applyPick, h] using hinv
    | some i =>
      obtain ⟨p, hp, hund, _⟩ := find_player_by_name_sound st n c i h
      simpa [stepPick, h] using applyPick_inv st t i p hp hund hinv

theorem runPicks_inv (acts : List PickAction) (st : DraftState) (hinv : Inv st) :
    Inv (runPicks st acts) := by
  induction acts generalizing st with
  | nil => exact hinv
  | cons a as ih => exact ih (stepPick st a) (stepPick_inv st a hinv)

/-- C1: amended claim. Provided all player names in the pool are distinct
(which holds for the ranking files the simulator loads), once a player has
been drafted no pick of any seat type can select that player again: every
selection path filters on the `drafted` flag, so over an arbitrary draft run
the `drafted_players` audit list stays duplicate-free and every pool player is
appended to at most one team's roster. -/
theorem C1_no_double_draft (players : List Player) (acts : List PickAction)
    (hstart : ∀ p ∈ players, p.drafted = false)
    (hnames : (players.map Player.name).Nodup) :
    ((runPicks ⟨players, [], []⟩ acts).draftedPlayers).Nodup ∧
    (((runPicks ⟨players, [], []⟩ acts).rosterEntries).map Prod.snd).Nodup := by
  have hinv : Inv ⟨players, [], []⟩ := by
    refine ⟨List.nodup_nil, ?_, ?_, List.nodup_nil, hnames⟩
    · intro i p hp
      constructor
      · intro hd
        rw [hstart p (List.getElem?_mem hp)] at hd
        exact absurd hd (by decide)
      · intro hmem
        exact absurd hmem (List.not_mem_nil _)
    · intro i p _ _ e he
      exact absurd he (List.not_mem_nil _)
  have h := runPicks_inv acts ⟨players, [], []⟩ hinv
  exact ⟨h.1, h.2.2.2.1⟩

/-- C1: counterexample to the claim as stated. With two distinct pool players
sharing one name, the automated path drafts both (each has its own `drafted`
flag), so the audit list receives the same name twice: the no-duplicate-name
conclusion needs the distinct-names assumption. -/
theorem C1_counterexample :
    ¬ ((runPicks
        ⟨[loadPlayer "John Smith" "RB" "SF" none,
          loadPlayer "John Smith" "WR" "KC" none], [], []⟩
        [PickAction.auto "Team One", PickAction.auto "Team Two"]).draftedPlayers).Nodup := by
  decide

/-- C1: witness instantiating `C1_no_double_draft` on a concrete two-pick
run. -/
theorem C1_witness :
    ((runPicks
        ⟨[loadPlayer "Alice Adams" "RB" "SF" none,
          loadPlayer "Bob Brown" "WR" "KC" none], [], []⟩
        [PickAction.auto "Team One",
         PickAction.selector "Team Two" "bob" 0]).draftedPlayers).Nodup ∧
    (((runPicks
        ⟨[loadPlayer "Alice Adams" "RB" "SF" none,
          loadPlayer "Bob Brown" "WR" "KC" none], [], []⟩
        [PickAction.auto "Team One",
         PickAction.selector "Team Two" "bob" 0]).rosterEntries).map Prod.snd).Nodup :=
  C1_no_double_draft
    [loadPlayer "Alice Adams" "RB" "SF" none, loadPlayer "Bob Brown" "WR" "KC" none]
    [PickAction.auto "Team One", PickAction.selector "Team Two" "bob" 0]
    (by decide) (by decide)

/-- C9: amended claim. A Selector-returned name is resolved case-insensitively
by substring match over the undrafted players; a resolved index always denotes
an undrafted player whose lower-cased name contains the lower-cased query as a
substring; whenever at least one player matches, some matching player is
returned (the pick is not silently skipped); a unique match is returned
directly; an ambiguous match is resolved by the interactively supplied
selection (modelled by `c`), not by a deterministic first-pool-order rule. -/
theorem C9_name_resolution (st : DraftState) (q : String) (c : Nat) :
    (∀ i, find_player_by_name st q c = some i →
      ∃ p, st.players[i]? = some p ∧ p.drafted = false ∧
        ∃ l r, p.name.toList.map Char.toLower =
          l ++ (q.toList.map Char.toLower ++ r)) ∧
    (matchIndices st q ≠ [] →
      ∃ i, find_player_by_name st q c = some i ∧ i ∈ matchIndices st q) ∧
    ((matchIndices st q).length = 1 →
      find_player_by_name st q c = (matchIndices st q).head?) := by
  refine ⟨?_, ?_, ?_⟩
  · intro i h
    obtain ⟨p, hp, hund, hsub⟩ := find_player_by_name_sound st q c i h
    exact ⟨p, hp, hund, (isSubstring_iff _ _).mp hsub⟩
  · intro hne
    refine ⟨(matchIndices st q).get
      ⟨c % (matchIndices st q).length, Nat.mod_lt _ (List.length_pos.mpr hne)⟩, ?_, ?_⟩
    · unfold find_player_by_name
      rw [dif_neg hne]
    · exact List.get_mem _ _ _
  · intro hlen
    have hne : matchIndices st q ≠ [] := by
      intro hnil
      rw [hnil] at hlen
      exact absurd hlen (by decide)
    obtain ⟨a, ha⟩ := List.length_eq_one.mp hlen
    unfold find_player_by_name
    rw [dif_neg hne]
    simp [ha, Nat.mod_one]

/-- C9: counterexample to the claim as stated. `find_player_by_name` does not
deterministically pick the first pool-order match on an ambiguous query: it
interactively prompts for a selection, and the user's choice (here `1`) can
pick the second match. -/
theorem C9_counterexample :
    matchIndices
        ⟨[loadPlayer "Alpha Smith" "RB" "SF" none,
          loadPlayer "Beta Smith" "WR" "KC" none], [], []⟩ "smith" = [0, 1] ∧
    find_player_by_name
        ⟨[loadPlayer "Alpha Smith" "RB" "SF" none,
          loadPlayer "Beta Smith" "WR" "KC" none], [], []⟩ "smith" 1 = some 1 := by
  decide

/-- C9: witness instantiating `C9_name_resolution` on a concrete ambiguous
pool. -/
theorem C9_witness :
    ∃ i, find_player_by_name
        ⟨[loadPlayer "Alpha Smith" "RB" "SF" none,
          loadPlayer "Beta Smith" "WR" "KC" none], [], []⟩ "smith" 0 = some i ∧
      i ∈ matchIndices
        ⟨[loadPlayer "Alpha Smith" "RB" "SF" none,
          loadPlayer "Beta Smith" "WR" "KC" none], [], []⟩ "smith" :=
  (C9_name_resolution
    ⟨[loadPlayer "Alpha Smith" "RB" "SF" none,
      loadPlayer "Beta Smith" "WR" "KC" none], [], []⟩ "smith" 0).2.1 (by decide)

/-! `AutoGenDrafter.make_draft_selection`: retry loop and fallback policy. -/

/-- The retry loop `for attempt in range(max_attempts)` with `max_attempts = 3`
around `initiate_chat`: `attempt n` tells whether the `n`-th call returns
without raising; the loop breaks at the first success and never makes a fourth
call. Every exception is caught, so the loop itself never propagates one. -/
def attemptsTried (attempt : Nat → Bool) : Nat :=
  if attempt 0 then 1 else if attempt 1 then 2 else 3

/-- `team.roster.get(pos, [])` on the roster dictionary. -/
def rosterGet (roster : List (String × List Player)) (pos : String) : List Player :=
  (roster.lookup pos).getD []

/-- The `needed_positions` list of the fallback branch, in source order. The
roster lists only ever receive real players, so
`any(p for p in ... if p is not None)` is a non-emptiness test. -/
def needed_positions (roster : List (String × List Player)) : List String :=
  (if rosterGet roster "QB" = [] then ["QB"] else []) ++
  (if (rosterGet roster "RB").length < 2 then ["RB"] else []) ++
  (if (rosterGet roster "WR").length < 2 then ["WR"] else []) ++
  (if rosterGet roster "TE" = [] then ["TE"] else [])

/-- The `position_players` filter of the fallback branch: in rounds 1 to 3,
when RB or WR is still needed, restrict to those priority positions, otherwise
to all needed positions. -/
def fallback_pool (availablePlayers : List Player)
    (roster : List (String × List Player)) (current_round : Nat) : List Player :=
  if current_round ≤ 3 ∧
      ("RB" ∈ needed_positions roster ∨ "WR" ∈ needed_positions roster) then
    availablePlayers.filter (fun p =>
      ((["RB", "WR"] : List String).filter
        (fun pos => (needed_positions roster).contains pos)).contains p.position)
  else
    availablePlayers.filter (fun p => (needed_positions roster).contains p.position)

/-- One step of computing the first element of
`sorted(position_players, key=lambda p: getattr(p, "rating", 999), reverse=True)`:
the running best keeps the earlier player on ties, matching the stability of
Python's sort. -/
def ratingStep (best : Option Player) (p : Player) : Option Player :=
  match best with
  | none => some p
  | some b => if b.rating.getD 999 < p.rating.getD 999 then some p else some b

/-- The player the fallback loop assigns before `break`: the first element of
the stable descending sort by the `rating` attribute (default 999). -/
def bestByRating (l : List Player) : Option Player :=
  l.foldl ratingStep none

/-- The fallback branch of `make_draft_selection`: filter to needed positions,
fall back to all available players when that filter is empty, and take the
best-rated player's name; `None` only when no player is available at all. -/
def fallback_selection (availablePlayers : List Player)
    (roster : List (String × List Player)) (current_round : Nat) : Option String :=
  (bestByRating
    (if fallback_pool availablePlayers roster current_round = [] then availablePlayers
     else fallback_pool availablePlayers roster current_round)).map Player.name

/-- The filter `AutoGenDrafter` applies to the incoming pool, both in
`get_available_players` and at the top of `make_draft_selection`: drop players
whose `drafted` flag is set or whose name is already in `drafted_players`. -/
def selectorAvailable (available_players : List Player)
    (drafted_players : List String) : List Player :=
  available_players.filter (fun p => !p.drafted && !(drafted_players.contains p.name))

/-- `AutoGenDrafter.make_draft_selection`: run the retry loop around the
group chat, then extract a player name from the captured transcript
(`extract_player_name_from_output`, an external regex pipeline modelled by the
`extracted` oracle); when no name could be extracted, resolve the pick with
the deterministic fallback policy. Returns the number of chat attempts made
and the selected name. -/
def make_draft_selection (attempt : Nat → Bool) (extracted : Option String)
    (available_players : List Player) (drafted_players : List String)
    (roster : List (String × List Player)) (current_round : Nat) :
    Nat × Option String :=
  (attemptsTried attempt,
   match extracted with
   | some n => some n
   | none =>
     fallback_selection (selectorAvailable available_players drafted_players)
       roster current_round)

theorem foldl_ratingStep_mem (l : List Player) (acc : Option Player) (p : Player)
    (h : l.foldl ratingStep acc = some p) : p ∈ l ∨ acc = some p := by
  induction l generalizing acc with
  | nil => exact Or.inr h
  | cons a as ih =>
    rcases ih (ratingStep acc a) h with hmem | hacc
    · exact Or.inl (List.mem_cons_of_mem _ hmem)
    · cases acc with
      | none =>
        injection hacc with hacc
        exact Or.inl (hacc ▸ List.mem_cons_self _ _)
      | some b =>
        simp only [ratingStep] at hacc
        split at hacc
        · injection hacc with hacc
          exact Or.inl (hacc ▸ List.mem_cons_self _ _)
        · exact Or.inr hacc

theorem foldl_ratingStep_ne_none (l : List Player) (acc : Option Player)
    (h : acc ≠ none ∨ l ≠ []) : l.foldl ratingStep acc ≠ none := by
  induction l generalizing acc with
  | nil =>
    rcases h with h | h
    · exact h
    · exact absurd rfl h
  | cons a as ih =>
    refine ih (ratingStep acc a) (Or.inl ?_)
    cases acc with
    | none => simp [ratingStep]
    | some b =>
      simp only [ratingStep]
      split <;> simp

theorem bestByRating_sound (l : List Player) (hne : l ≠ []) :
    ∃ p, bestByRating l = some p ∧ p ∈ l := by
  cases hb : bestByRating l with
  | none => exact absurd hb (foldl_ratingStep_ne_none l none (Or.inr hne))
  | some p =>
    rcases foldl_ratingStep_mem l none p hb with hmem | hacc
    · exact ⟨p, rfl, hmem⟩
    · exact absurd hacc (by simp)

theorem fallback_selection_sound (avail : List Player)
    (roster : List (String × List Player)) (round : Nat) (hne : avail ≠ []) :
    ∃ nm, fallback_selection avail roster round = some nm ∧
      nm ∈ avail.map Player.name := by
  unfold fallback_selection
  by_cases hpool : fallback_pool avail roster round = []
  · rw [if_pos hpool]
    obtain ⟨p, hp, hmem⟩ := bestByRating_sound avail hne
    exact ⟨p.name, by rw [hp]; rfl, List.mem_map_of_mem _ hmem⟩
  · rw [if_neg hpool]
    obtain ⟨p, hp, hmem⟩ := bestByRating_sound _ hpool
    have hsub : p ∈ avail := by
      unfold fallback_pool at hmem
      split at hmem
      · exact List.filter_subset' _ hmem
      · exact List.filter_subset' _ hmem
    exact ⟨p.name, by rw [hp]; rfl, List.mem_map_of_mem _ hsub⟩

/-- C4: amended claim. The engine retries the Selector chat up to the fixed
bound of 3 attempts (stopping at the first success, and aborting nothing —
every exception is caught); when no player name can be extracted from the
transcript it resolves the pick via the deterministic fallback policy, which
returns some available player whenever any player is available; but when the
Selector produces a name that does not resolve against the pool,
`run_draft` logs an error and skips that pick (no fallback at the resolution
stage) while the draft continues. -/
theorem C4_retry_and_fallback (attempt : Nat → Bool) (extracted : Option String)
    (available_players : List Player) (drafted_players : List String)
    (roster : List (String × List Player)) (current_round : Nat) :
    (make_draft_selection attempt extracted available_players drafted_players
        roster current_round).1 ≤ 3 ∧
    (attempt 0 = true →
      (make_draft_selection attempt extracted available_players drafted_players
        roster current_round).1 = 1) ∧
    (extracted = none →
      selectorAvailable available_players drafted_players ≠ [] →
      ∃ nm, (make_draft_selection attempt extracted available_players
          drafted_players roster current_round).2 = some nm ∧
        nm ∈ (selectorAvailable available_players drafted_players).map Player.name) ∧
    (∀ (st : DraftState) (t n : String) (c : Nat),
      find_player_by_name st n c = none →
      stepPick st (PickAction.selector t n c) = st) := by
  refine ⟨?_, ?_, ?_, ?_⟩
  · unfold make_draft_selection attemptsTried
    dsimp only
    split
    · omega
    · split <;> omega
  · intro h0
    unfold make_draft_selection attemptsTried
    dsimp only
    rw [if_pos h0]
  · intro hext hne
    obtain ⟨nm, hnm, hmem⟩ := fallback_selection_sound _ roster current_round hne
    refine ⟨nm, ?_, hmem⟩
    unfold make_draft_selection
    rw [hext]
    exact hnm
  · intro st t n c h
    simp [stepPick, h, applyPick]

/-- C4: counterexample to the claim as stated. A Selector name that does not
resolve against the pool leads `run_draft` to skip the pick entirely: the
state is unchanged even though an undrafted player was available, so the pick
is not resolved by the fallback policy. -/
theorem C4_counterexample :
    stepPick ⟨[loadPlayer "Alice Adams" "RB" "SF" none], [], []⟩
        (PickAction.selector "Team One" "Zzz Fake Player" 0) =
      ⟨[loadPlayer "Alice Adams" "RB" "SF" none], [], []⟩ ∧
    availableIndices ⟨[loadPlayer "Alice Adams" "RB" "SF" none], [], []⟩ ≠ [] := by
  decide

/-- C4: witness instantiating `C4_retry_and_fallback` with three failing
attempts and an empty extraction. -/
theorem C4_witness :
    (make_draft_selection (fun _ => false) none
        [loadPlayer "Alice Adams" "RB" "SF" none] [] [] 1).1 ≤ 3 ∧
    ∃ nm, (make_draft_selection (fun _ => false) none
        [loadPlayer "Alice Adams" "RB" "SF" none] [] [] 1).2 = some nm ∧
      nm ∈ (selectorAvailable [loadPlayer "Alice Adams" "RB" "SF" none] []).map
        Player.name :=
  ⟨(C4_retry_and_fallback (fun _ => false) none
      [loadPlayer "Alice Adams" "RB" "SF" none] [] [] 1).1,
   (C4_retry_and_fallback (fun _ => false) none
      [loadPlayer "Alice Adams" "RB" "SF" none] [] [] 1).2.2.1 rfl (by decide)⟩

/-! `player_ranking_tool.load_and_combine_fantasy_data`: the average rank and
the `Overall_Rank` assignment (claim C3), with Python's `round` modelled on
rationals. -/

/-- The floor of a rational, written computably (`Rat.floor_def`). -/
def pyFloor (q : Rat) : Int := q.num / q.den

theorem pyFloor_eq (q : Rat) : pyFloor q = ⌊q⌋ := Rat.floor_def.symm

/-- Python `round` to an integer: banker's rounding (round half to even). -/
def roundHalfEven (q : Rat) : Int :=
  if q - pyFloor q = 1 / 2 then
    (if pyFloor q % 2 = 0 then pyFloor q else pyFloor q + 1)
  else pyFloor (q + 1 / 2)

/-- Python `round(x, 1)`. -/
def roundTenth (q : Rat) : Rat :=
  (roundHalfEven (q * 10) : Rat) / 10

/-- One row of the merged ranking table: the player and the per-source ranks
(`ESPN_Rank`, `Sleeper_Rank`, `Yahoo_Rank`), null when a source does not rank
the player. -/
structure AdpRow where
  name : String
  espnRank : Option Rat
  sleeperRank : Option Rat
  yahooRank : Option Rat
  deriving DecidableEq

/-- The non-null source ranks of a row. -/
def sourceRanks (r : AdpRow) : List Rat :=
  [r.espnRank, r.sleeperRank, r.yahooRank].filterMap id

/-- `final_df[['ESPN_Rank','Sleeper_Rank','Yahoo_Rank']].mean(axis=1,
skipna=True).round(1)`: the mean of the available ranks rounded to one
decimal, null when no source ranks the player. -/
def avgRank (r : AdpRow) : Option Rat :=
  match sourceRanks r with
  | [] => none
  | v :: vs => some (roundTenth ((v :: vs).sum / (v :: vs).length))

/-- The sort key of `sort_values('Avg_Rank')`: null average ranks sort last
(pandas default `na_position='last'`). -/
def rankKey (r : AdpRow) : WithTop Rat :=
  (avgRank r).elim ⊤ (fun q => (q : WithTop Rat))

/-- The contract of pandas `final_df.sort_values('Avg_Rank')` with its default
`kind='quicksort'`: the output is a permutation of the rows that is
non-decreasing in the key (nulls last). The default quicksort is NOT stable,
so no tie-breaking order is guaranteed; the sort is therefore modelled as a
relation over admissible outputs. -/
def sortValuesSpec (input output : List AdpRow) : Prop :=
  output.Perm input ∧ output.Pairwise (fun a b => rankKey a ≤ rankKey b)

/-- `final_df.insert(0, 'Overall_Rank', range(1, len(final_df) + 1))`: the
1-based position in the sorted order. -/
def assignOverallRank (rows : List AdpRow) : List (Nat × AdpRow) :=
  rows.enum.map (fun p => (p.1 + 1, p.2))

/-- C3: amended claim. For every admissible output of the fusion sort, the
assigned `overall_rank` values are exactly the strict sequence 1..N, the rows
are a permutation of the input, and the order is non-decreasing in
`average_rank` with null average ranks last; the tie-breaking order among
equal average ranks is NOT specified (pandas' default quicksort is unstable),
so ties are in no particular order — in particular never specifically by
name, but also not necessarily by stable input order. -/
theorem C3_rank_ordering (input output : List AdpRow)
    (h : sortValuesSpec input output) :
    (assignOverallRank output).map Prod.fst = (List.range output.length).map (· + 1) ∧
    output.Perm input ∧
    output.Pairwise (fun a b => rankKey a ≤ rankKey b) ∧
    output.Pairwise (fun a b => avgRank a = none → avgRank b = none) := by
  refine ⟨?_, h.1, h.2, ?_⟩
  · unfold assignOverallRank
    rw [← List.enum_map_fst output, List.map_map, List.map_map]
    rfl
  · refine h.2.imp ?_
    intro a b hab hnone
    have ha : rankKey a = ⊤ := by rw [rankKey, hnone]; rfl
    rw [ha] at hab
    have hb : rankKey b = ⊤ := top_le_iff.mp hab
    cases hob : avgRank b with
    | none => rfl
    | some q =>
      rw [rankKey, hob] at hb
      exact absurd hb (WithTop.coe_ne_top)

/-- C3: counterexample to the claim as stated. Two rows with equal average
rank: the sort contract admits the tie-swapped output, so "ties broken by
stable input order" is not guaranteed by the code's sort. -/
theorem C3_counterexample :
    sortValuesSpec
      [⟨"Alpha", some 1, some 1, some 1⟩, ⟨"Beta", some 1, some 1, some 1⟩]
      [⟨"Beta", some 1, some 1, some 1⟩, ⟨"Alpha", some 1, some 1, some 1⟩] ∧
    ([⟨"Beta", some 1, some 1, some 1⟩, ⟨"Alpha", some 1, some 1, some 1⟩] :
        List AdpRow) ≠
      [⟨"Alpha", some 1, some 1, some 1⟩, ⟨"Beta", some 1, some 1, some 1⟩] := by
  refine ⟨⟨List.Perm.swap _ _ [], ?_⟩, ?_⟩
  · refine List.Pairwise.cons ?_ (List.pairwise_singleton _ _)
    intro b hb
    rw [List.mem_singleton] at hb
    subst hb
    exact le_of_eq rfl
  · intro h
    injection h with h1 _
    injection h1 with hname _ _ _
    exact absurd hname (by decide)

/-- C3: witness instantiating `C3_rank_ordering` on a concrete sorted pool
(one ranked row, one null-rank row sorting last). -/
theorem C3_witness :
    (assignOverallRank
        [⟨"Alpha", some 1, some 2, none⟩, ⟨"Gamma", none, none, none⟩]).map
      Prod.fst = (List.range 2).map (· + 1) ∧
    ([⟨"Alpha", some 1, some 2, none⟩, ⟨"Gamma", none, none, none⟩] :
        List AdpRow).Perm
      [⟨"Alpha", some 1, some 2, none⟩, ⟨"Gamma", none, none, none⟩] ∧
    ([⟨"Alpha", some 1, some 2, none⟩, ⟨"Gamma", none, none, none⟩] :
        List AdpRow).Pairwise (fun a b => rankKey a ≤ rankKey b) ∧
    ([⟨"Alpha", some 1, some 2, none⟩, ⟨"Gamma", none, none, none⟩] :
        List AdpRow).Pairwise (fun a b => avgRank a = none → avgRank b = none) :=
  C3_rank_ordering
    [⟨"Alpha", some 1, some 2, none⟩, ⟨"Gamma", none, none, none⟩]
    [⟨"Alpha", some 1, some 2, none⟩, ⟨"Gamma", none, none, none⟩]
    ⟨List.Perm.refl _, by
      refine List.Pairwise.cons ?_ (List.pairwise_singleton _ _)
      intro b hb
      rw [List.mem_singleton] at hb
      subst hb
      exact le_top⟩

/-! `defense_ranking_tool.categorize_defenses`. -/

/-- The per-category sizes: `teams_per_category = n // num_categories` each,
with the `n % num_categories` remainder teams distributed one per category
from the beginning (the best tier). -/
def category_sizes (n k : Nat) : List Nat :=
  (List.range k).map (fun i => n / k + if i < n % k then 1 else 0)

/-- Assign the (already sorted) rows to consecutive categories of the given
sizes, as the nested `for i, size ... for j in range(size)` loop does. -/
def splitSizes {α : Type} : List α → List Nat → List (List α)
  | _, [] => []
  | l, s :: ss => l.take s :: splitSizes (l.drop s) ss

/-- `categorize_defenses` for one position's ranked table: split the sorted
teams into `num_categories` contiguous tiers. `num_categories = 0` raises
`ZeroDivisionError` at `n_teams // num_categories` in Python, modelled by
`none`. -/
def categorize_defenses {α : Type} (teams : List α) (k : Nat) : Option (List (List α)) :=
  if k = 0 then none
  else some (splitSizes teams (category_sizes teams.length k))

theorem sum_map_range_all_lt (a : Nat) :
    ∀ k r, k ≤ r →
      ((List.range k).map (fun i => a + if i < r then 1 else 0)).sum = k * (a + 1) := by
  intro k
  induction k with
  | zero => intro r _; simp
  | succ k ih =>
    intro r hr
    rw [List.range_succ, List.map_append, List.sum_append,
      ih r (Nat.le_of_succ_le hr)]
    simp only [List.map_cons, List.map_nil, List.sum_cons, List.sum_nil,
      if_pos (Nat.lt_of_succ_le hr)]
    ring

theorem sum_map_range_add_ite (a : Nat) :
    ∀ k r, r ≤ k →
      ((List.range k).map (fun i => a + if i < r then 1 else 0)).sum = k * a + r := by
  intro k
  induction k with
  | zero =>
    intro r hr
    interval_cases r
    simp
  | succ k ih =>
    intro r hr
    by_cases hrk : r ≤ k
    · rw [List.range_succ, List.map_append, List.sum_append, ih r hrk]
      simp only [List.map_cons, List.map_nil, List.sum_cons, List.sum_nil,
        if_neg (by omega : ¬ k < r)]
      ring
    · have hreq : r = k + 1 := by omega
      subst hreq
      rw [sum_map_range_all_lt a (k + 1) (k + 1) le_rfl]
      ring

theorem category_sizes_sum (n k : Nat) (hk : 0 < k) : (category_sizes n k).sum = n := by
  unfold category_sizes
  rw [sum_map_range_add_ite (n / k) k (n % k) (Nat.le_of_lt (Nat.mod_lt n hk))]
  exact Nat.div_add_mod n k

theorem category_sizes_length (n k : Nat) : (category_sizes n k).length = k := by
  simp [category_sizes]

theorem category_sizes_mem (n k : Nat) :
    ∀ s ∈ category_sizes n k, s = n / k ∨ s = n / k + 1 := by
  intro s hs
  unfold category_sizes at hs
  rw [List.mem_map] at hs
  obtain ⟨i, _, hi⟩ := hs
  by_cases hir : i < n % k
  · rw [if_pos hir] at hi
    exact Or.inr hi.symm
  · rw [if_neg hir] at hi
    exact Or.inl (by omega)

theorem splitSizes_length {α : Type} (ss : List Nat) (l : List α) :
    (splitSizes l ss).length = ss.length := by
  induction ss generalizing l with
  | nil => rfl
  | cons s ss ih => simp [splitSizes, ih]

theorem splitSizes_flatten {α : Type} (ss : List Nat) (l : List α)
    (h : ss.sum = l.length) : (splitSizes l ss).flatten = l := by
  induction ss generalizing l with
  | nil =>
    rw [List.sum_nil] at h
    simp [splitSizes, (List.length_eq_zero.mp h.symm).symm]
  | cons s ss ih =>
    rw [List.sum_cons] at h
    simp only [splitSizes, List.flatten_cons]
    rw [ih (l.drop s) (by rw [List.length_drop]; omega)]
    exact List.take_append_drop s l

theorem splitSizes_map_length {α : Type} (ss : List Nat) (l : List α)
    (h : ss.sum ≤ l.length) : (splitSizes l ss).map List.length = ss := by
  induction ss generalizing l with
  | nil => rfl
  | cons s ss ih =>
    rw [List.sum_cons] at h
    simp only [splitSizes, List.map_cons]
    rw [List.length_take, ih (l.drop s) (by rw [List.length_drop]; omega)]
    congr 1
    omega

/-- C6: amended claim. For every list of ranked teams and every
`num_categories ≥ 1`, `categorize_defenses` splits the teams into exactly
`num_categories` contiguous, non-overlapping, jointly-exhaustive tiers
(their concatenation in order is the input), the tier sizes are
`n / num_categories` with the remainder distributed one per tier starting
from the best tier, and any two tier sizes differ by at most 1. -/
theorem C6_tiering {α : Type} (teams : List α) (k : Nat) (hk : 1 ≤ k) :
    ∃ groups, categorize_defenses teams k = some groups ∧
      groups.length = k ∧
      groups.flatten = teams ∧
      groups.map List.length = category_sizes teams.length k ∧
      (∀ g1 ∈ groups, ∀ g2 ∈ groups, g1.length ≤ g2.length + 1) := by
  have hsum := category_sizes_sum teams.length k (by omega)
  refine ⟨splitSizes teams (category_sizes teams.length k), ?_, ?_, ?_, ?_, ?_⟩
  · unfold categorize_defenses
    rw [if_neg (by omega)]
  · rw [splitSizes_length, category_sizes_length]
  · exact splitSizes_flatten _ _ hsum
  · exact splitSizes_map_length _ _ (le_of_eq hsum)
  · intro g1 h1 g2 h2
    have hm := splitSizes_map_length (category_sizes teams.length k) teams
      (le_of_eq hsum)
    have hg1 : g1.length ∈ category_sizes teams.length k := by
      rw [← hm]
      exact List.mem_map_of_mem _ h1
    have hg2 : g2.length ∈ category_sizes teams.length k := by
      rw [← hm]
      exact List.mem_map_of_mem _ h2
    rcases category_sizes_mem _ _ _ hg1 with e1 | e1 <;>
      rcases category_sizes_mem _ _ _ hg2 with e2 | e2 <;> omega

/-- C6: counterexample to the claim as stated. `num_categories = 0` makes
`n_teams // num_categories` raise `ZeroDivisionError`, so no partition is
produced: the claim cannot hold for every `num_categories`. -/
theorem C6_counterexample :
    categorize_defenses (List.range 32) 0 = none := rfl

/-- C6: witness instantiating `C6_tiering` on 32 ranked teams with the
default 5 categories. -/
theorem C6_witness :
    ∃ groups, categorize_defenses (List.range 32) 5 = some groups ∧
      groups.length = 5 ∧
      groups.flatten = List.range 32 ∧
      groups.map List.length = category_sizes (List.range 32).length 5 ∧
      (∀ g1 ∈ groups, ∀ g2 ∈ groups, g1.length ≤ g2.length + 1) :=
  C6_tiering (List.range 32) 5 (by decide)

/-! `defense_ranking_tool.add_defense_matchup_to_players`: per-player schedule
difficulty. -/

/-- The per-week matchup favorability: `((33 - defense_rank) / 32) * 100` for
offensive positions, `(defense_rank / 32) * 100` for the `DEF` position
(direction inverted: for `DEF` a higher opposing rank is the better
matchup). -/
def matchup_score (position : String) (defense_rank : Rat) : Rat :=
  if position = "DEF" then defense_rank / 32 * 100
  else (33 - defense_rank) / 32 * 100

/-- The favorability scores of the resolvable non-bye weeks of a team's
schedule. `defLookup` is `defense_lookup[position]` composed with the
team-name-variation search: it resolves an opponent string to that defense's
rank, `none` when the opponent cannot be resolved. -/
def week_scores (position : String) (defLookup : String → Option Rat)
    (schedule : List String) : List Rat :=
  schedule.filterMap (fun opp =>
    if opp = "BYE" then none
    else (defLookup opp).map (matchup_score position))

/-- The `Schedule_Difficulty_Score` of one player: the average favorability
over resolvable weeks rounded to one decimal, and no score at all when
`matchup_count` is zero. -/
def schedule_difficulty_score (position : String) (defLookup : String → Option Rat)
    (schedule : List String) : Option Rat :=
  if week_scores position defLookup schedule = [] then none
  else some (roundTenth ((week_scores position defLookup schedule).sum /
    ((week_scores position defLookup schedule).length : Rat)))

theorem roundHalfEven_bounds (x : Rat) (lo hi : Int)
    (hlo : (lo : Rat) ≤ x) (hhi : x ≤ (hi : Rat)) :
    lo ≤ roundHalfEven x ∧ roundHalfEven x ≤ hi := by
  unfold roundHalfEven
  simp only [pyFloor_eq]
  have hfl : lo ≤ ⌊x⌋ := Int.le_floor.mpr hlo
  have hfu : ⌊x⌋ ≤ hi := by
    calc ⌊x⌋ ≤ ⌊(hi : Rat)⌋ := Int.floor_le_floor hhi
    _ = hi := Int.floor_intCast hi
  split
  · rename_i hhalf
    have hlt : ⌊x⌋ < hi := by
      rcases lt_or_eq_of_le hfu with h | h
      · exact h
      · exfalso
        have hx : x = (⌊x⌋ : Rat) + 1 / 2 := by linarith [hhalf]
        rw [hx, h] at hhi
        norm_num at hhi
    split
    · exact ⟨hfl, hfu⟩
    · exact ⟨le_trans hfl (by omega), by omega⟩
  · constructor
    · refine Int.le_floor.mpr ?_
      linarith
    · have hlt2 : ⌊x + 1 / 2⌋ < hi + 1 := by
        rw [Int.floor_lt]
        push_cast
        linarith
      omega

theorem roundTenth_bounds (q : Rat) (h0 : 0 ≤ q) (h100 : q ≤ 100) :
    0 ≤ roundTenth q ∧ roundTenth q ≤ 100 := by
  have h := roundHalfEven_bounds (q * 10) 0 1000 (by push_cast; linarith)
    (by push_cast; linarith)
  unfold roundTenth
  have h1 : (0 : Rat) ≤ (roundHalfEven (q * 10) : Rat) := by exact_mod_cast h.1
  have h2 : (roundHalfEven (q * 10) : Rat) ≤ 1000 := by exact_mod_cast h.2
  constructor
  · positivity
  · linarith

theorem matchup_score_bounds (position : String) (r : Rat)
    (h1 : 1 ≤ r) (h32 : r ≤ 32) :
    0 ≤ matchup_score position r ∧ matchup_score position r ≤ 100 := by
  unfold matchup_score
  split <;> constructor <;> linarith

theorem week_scores_bounds (position : String) (defLookup : String → Option Rat)
    (schedule : List String)
    (hlk : ∀ opp r, defLookup opp = some r → 1 ≤ r ∧ r ≤ 32) :
    ∀ s ∈ week_scores position defLookup schedule, 0 ≤ s ∧ s ≤ 100 := by
  intro s hs
  unfold week_scores at hs
  rw [List.mem_filterMap] at hs
  obtain ⟨opp, _, hopp⟩ := hs
  split at hopp
  · exact absurd hopp (by simp)
  · rw [Option.map_eq_some'] at hopp
    obtain ⟨r, hr, hsr⟩ := hopp
    obtain ⟨hr1, hr32⟩ := hlk opp r hr
    exact hsr ▸ matchup_score_bounds position r hr1 hr32

theorem list_sum_bounds (l : List Rat) (h : ∀ x ∈ l, 0 ≤ x ∧ x ≤ 100) :
    0 ≤ l.sum ∧ l.sum ≤ 100 * l.length := by
  induction l with
  | nil => simp
  | cons a as ih =>
    have ha := h a (List.mem_cons_self _ _)
    have has := ih (fun x hx => h x (List.mem_cons_of_mem _ hx))
    simp only [List.sum_cons, List.length_cons]
    push_cast
    constructor <;> linarith [ha.1, ha.2, has.1, has.2]

/-- C7: for every player position, rank-lookup function (with all resolvable
defense ranks in 1..32) and schedule, the schedule difficulty score is absent
exactly when no week resolves; otherwise it equals the average of the
per-week matchup favorability scores (offensive `((33 - rank)/32)*100`,
inverted for `DEF`) rounded to one decimal, and every produced score lies in
[0, 100]. -/
theorem C7_schedule_bounds (position : String) (defLookup : String → Option Rat)
    (schedule : List String)
    (hlk : ∀ opp r, defLookup opp = some r → 1 ≤ r ∧ r ≤ 32) :
    (week_scores position defLookup schedule = [] →
      schedule_difficulty_score position defLookup schedule = none) ∧
    (week_scores position defLookup schedule ≠ [] →
      schedule_difficulty_score position defLookup schedule =
        some (roundTenth ((week_scores position defLookup schedule).sum /
          ((week_scores position defLookup schedule).length : Rat)))) ∧
    (∀ s, schedule_difficulty_score position defLookup schedule = some s →
      0 ≤ s ∧ s ≤ 100) := by
  refine ⟨fun h => by rw [schedule_difficulty_score, if_pos h],
    fun h => by rw [schedule_difficulty_score, if_neg h], ?_⟩
  intro s hs
  unfold schedule_difficulty_score at hs
  split at hs
  · exact absurd hs (by simp)
  · rename_i hne
    injection hs with hs
    subst hs
    have hb := list_sum_bounds (week_scores position defLookup schedule)
      (week_scores_bounds position defLookup schedule hlk)
    have hlen : 0 < (week_scores position defLookup schedule).length :=
      List.length_pos.mpr hne
    have hlenq : (0 : Rat) < ((week_scores position defLookup schedule).length : Rat) := by
      exact_mod_cast hlen
    refine roundTenth_bounds _ (div_nonneg hb.1 (le_of_lt hlenq)) ?_
    rw [div_le_iff₀ hlenq]
    linarith [hb.2]

/-- A concrete defense-rank lookup used to instantiate C7: one resolvable
opponent with the best defense rank. -/
def demoLookup (opp : String) : Option Rat :=
  if opp = "KC" then some 1 else none

/-- C7: witness instantiating `C7_schedule_bounds` on a one-week schedule
whose single resolvable matchup scores `((33 - 1)/32)*100 = 100`. -/
theorem C7_witness : (0 : Rat) ≤ 100 ∧ (100 : Rat) ≤ 100 :=
  (C7_schedule_bounds "QB" demoLookup ["KC"] (by
    intro opp r hr
    unfold demoLookup at hr
    split at hr
    · injection hr with hr
      subst hr
      norm_num
    · exact absurd hr (by simp))).2.2 100 (by
    have hrt : roundTenth 100 = 100 := by
      have hfl : ⌊(100 : Rat) * 10 + 1 / 2⌋ = 1000 := by
        rw [Int.floor_eq_iff]
        norm_num
      rw [roundTenth, roundHalfEven]
      simp only [pyFloor_eq]
      rw [if_neg (by norm_num), hfl]
      norm_num
    have hws : week_scores "QB" demoLookup ["KC"] = [100] := by
      simp [week_scores, demoLookup, matchup_score]
      norm_num
    rw [schedule_difficulty_score, if_neg (by rw [hws]; simp), hws]
    norm_num [hrt])

/-! `team_ranking_tool.add_offense_context_to_rankings`: min-max
normalization of `Position_Opportunity_Score` within one position group. -/

/-- Minimum of a non-empty collection `v :: vs`. -/
def listMin (v : Rat) (vs : List Rat) : Rat := vs.foldl min v

/-- Maximum of a non-empty collection `v :: vs`. -/
def listMax (v : Rat) (vs : List Rat) : Rat := vs.foldl max v

/-- One position group's `Position_Opportunity_Score` column; `none` is a NaN
entry (the player's team was missing from the offense table, or the position
never receives a score). pandas `min()`/`max()` skip NaN, the guard
`if max_score > min_score` is false both for an all-equal column and for an
all-NaN one (NaN comparisons are false), and the normalization
`(scores - min) / (max - min) * 100` maps NaN entries to NaN. -/
def normalize_position_scores (scores : List (Option Rat)) : List (Option Rat) :=
  match scores.filterMap id with
  | [] => scores
  | v :: vs =>
    if listMin v vs < listMax v vs then
      scores.map (fun s => s.map (fun x =>
        (x - listMin v vs) / (listMax v vs - listMin v vs) * 100))
    else scores

theorem listMin_mem (v : Rat) (vs : List Rat) : listMin v vs ∈ v :: vs := by
  induction vs generalizing v with
  | nil => simp [listMin]
  | cons a as ih =>
    unfold listMin
    rw [List.foldl_cons]
    have h := ih (min v a)
    unfold listMin at h
    rcases List.mem_cons.mp h with h | h
    · rcases min_choice v a with hm | hm
      · rw [h, hm]
        exact List.mem_cons_self _ _
      · rw [h, hm]
        exact List.mem_cons_of_mem _ (List.mem_cons_self _ _)
    · exact List.mem_cons_of_mem _ (List.mem_cons_of_mem _ h)

theorem listMin_le (v : Rat) (vs : List Rat) : ∀ x ∈ v :: vs, listMin v vs ≤ x := by
  induction vs generalizing v with
  | nil =>
    intro x hx
    rw [List.mem_singleton] at hx
    subst hx
    simp [listMin]
  | cons a as ih =>
    intro x hx
    unfold listMin
    rw [List.foldl_cons]
    have ihh := ih (min v a)
    unfold listMin at ihh
    rcases List.mem_cons.mp hx with hxv | hx
    · rw [hxv]
      exact le_trans (ihh _ (List.mem_cons_self _ _)) (min_le_left v a)
    · rcases List.mem_cons.mp hx with hxa | hx
      · rw [hxa]
        exact le_trans (ihh _ (List.mem_cons_self _ _)) (min_le_right v a)
      · exact ihh x (List.mem_cons_of_mem _ hx)

theorem listMax_mem (v : Rat) (vs : List Rat) : listMax v vs ∈ v :: vs := by
  induction vs generalizing v with
  | nil => simp [listMax]
  | cons a as ih =>
    unfold listMax
    rw [List.foldl_cons]
    have h := ih (max v a)
    unfold listMax at h
    rcases List.mem_cons.mp h with h | h
    · rcases max_choice v a with hm | hm
      · rw [h, hm]
        exact List.mem_cons_self _ _
      · rw [h, hm]
        exact List.mem_cons_of_mem _ (List.mem_cons_self _ _)
    · exact List.mem_cons_of_mem _ (List.mem_cons_of_mem _ h)

theorem le_listMax (v : Rat) (vs : List Rat) : ∀ x ∈ v :: vs, x ≤ listMax v vs := by
  induction vs generalizing v with
  | nil =>
    intro x hx
    rw [List.mem_singleton] at hx
    subst hx
    simp [listMax]
  | cons a as ih =>
    intro x hx
    unfold listMax
    rw [List.foldl_cons]
    have ihh := ih (max v a)
    unfold listMax at ihh
    rcases List.mem_cons.mp hx with hxv | hx
    · rw [hxv]
      exact le_trans (le_max_left v a) (ihh _ (List.mem_cons_self _ _))
    · rcases List.mem_cons.mp hx with hxa | hx
      · rw [hxa]
        exact le_trans (le_max_right v a) (ihh _ (List.mem_cons_self _ _))
      · exact ihh x (List.mem_cons_of_mem _ hx)

theorem filterMap_id_map_optmap (f : Rat → Rat) (scores : List (Option Rat)) :
    (scores.map (fun s => s.map f)).filterMap id = (scores.filterMap id).map f := by
  induction scores with
  | nil => rfl
  | cons s ss ih => cases s <;> simp [ih]

/-- C8: for every position group, when the non-null raw scores contain two
distinct values the min-max normalization yields non-null scores that all lie
in [0, 100] and attain both 0 and 100; when all non-null raw scores are equal
(including the all-null group) normalization is skipped and the column is
returned unchanged; and each group is normalized independently of every other
group. -/
theorem C8_normalization (scores : List (Option Rat)) :
    ((∃ a ∈ scores.filterMap id, ∃ b ∈ scores.filterMap id, a ≠ b) →
      (∀ x ∈ (normalize_position_scores scores).filterMap id, 0 ≤ x ∧ x ≤ 100) ∧
      0 ∈ (normalize_position_scores scores).filterMap id ∧
      100 ∈ (normalize_position_scores scores).filterMap id) ∧
    ((∀ a ∈ scores.filterMap id, ∀ b ∈ scores.filterMap id, a = b) →
      normalize_position_scores scores = scores) ∧
    (∀ (groups : List (List (Option Rat))) (i : Nat),
      (groups.map normalize_position_scores)[i]? =
        (groups[i]?).map normalize_position_scores) := by
  refine ⟨?_, ?_, ?_⟩
  · rintro ⟨a, ha, b, hb, hab⟩
    cases hv : scores.filterMap id with
    | nil => rw [hv] at ha; cases ha
    | cons v vs =>
      have hbound : ∀ x ∈ scores.filterMap id,
          listMin v vs ≤ x ∧ x ≤ listMax v vs := by
        intro x hx
        rw [hv] at hx
        exact ⟨listMin_le v vs x hx, le_listMax v vs x hx⟩
      have hlt : listMin v vs < listMax v vs := by
        rcases lt_or_le (listMin v vs) (listMax v vs) with h | h
        · exact h
        · exfalso
          obtain ⟨ha1, ha2⟩ := hbound a ha
          obtain ⟨hb1, hb2⟩ := hbound b hb
          exact hab (by linarith)
      have hd : 0 < listMax v vs - listMin v vs := by linarith
      have hres : normalize_position_scores scores =
          scores.map (fun s => s.map (fun x =>
            (x - listMin v vs) / (listMax v vs - listMin v vs) * 100)) := by
        simp only [normalize_position_scores, hv]
        rw [if_pos hlt]
      rw [hres, filterMap_id_map_optmap]
      refine ⟨?_, ?_, ?_⟩
      · intro x hx
        rw [List.mem_map] at hx
        obtain ⟨y, hy, rfl⟩ := hx
        obtain ⟨hy1, hy2⟩ := hbound y hy
        have hq0 : 0 ≤ (y - listMin v vs) / (listMax v vs - listMin v vs) :=
          div_nonneg (by linarith) (le_of_lt hd)
        have hq1 : (y - listMin v vs) / (listMax v vs - listMin v vs) ≤ 1 :=
          (div_le_one hd).mpr (by linarith)
        constructor <;> nlinarith
      · rw [List.mem_map]
        refine ⟨listMin v vs, hv ▸ listMin_mem v vs, ?_⟩
        rw [sub_self, zero_div, zero_mul]
      · rw [List.mem_map]
        refine ⟨listMax v vs, hv ▸ listMax_mem v vs, ?_⟩
        rw [div_self (ne_of_gt hd), one_mul]
  · intro hall
    unfold normalize_position_scores
    split
    · rfl
    · rename_i v vs heq
      rw [if_neg]
      intro hlt
      have hm : listMin v vs ∈ scores.filterMap id := heq ▸ listMin_mem v vs
      have hM : listMax v vs ∈ scores.filterMap id := heq ▸ listMax_mem v vs
      rw [hall _ hm _ hM] at hlt
      exact lt_irrefl _ hlt
  · intro groups i
    rw [List.getElem?_map]

/-- C8: witness instantiating `C8_normalization` on a group with raw scores
10 and 30 and one NaN entry: the normalized non-null scores attain 0 and
100. -/
theorem C8_witness :
    0 ∈ (normalize_position_scores [some 10, none, some 30]).filterMap id ∧
    100 ∈ (normalize_position_scores [some 10, none, some 30]).filterMap id :=
  ⟨((C8_normalization [some 10, none, some 30]).1
      ⟨10, by simp, 30, by simp, by norm_num⟩).2.1,
   ((C8_normalization [some 10, none, some 30]).1
      ⟨10, by simp, 30, by simp, by norm_num⟩).2.2⟩

end FantasyDraft
